import Mathlib

/-!
Shallow embedding, in Lean, of the retrieval core of the repository:
the token-bounded chunking strategy (s4_chunking_strategy.py), the
embedding manager with its cache (s5_embedding_manager.py) and the
hybrid search engine with Reciprocal Rank Fusion (s6_search_engine.py).
Python strings are modelled as lists of characters, Python floats as
rationals, Python dicts as insertion-ordered association lists, and
raised exceptions as `Except` / `Option` values.  The theorems at the
end of the file settle the specification claims against these
definitions.
-/

/-- Lookup in an insertion-ordered association list (Python `d[k]` /
`d.get(k)`); dict keys are unique, so first match suffices. -/
def dFind {κ α : Type} [DecidableEq κ] : List (κ × α) → κ → Option α
  | [], _ => none
  | p :: d, k => if p.1 = k then some p.2 else dFind d k

/-- Key membership in an association list (Python `k in d`). -/
def dMem {κ α : Type} [DecidableEq κ] : List (κ × α) → κ → Bool
  | [], _ => false
  | p :: d, k => decide (p.1 = k) || dMem d k

/-- Python dict assignment `d[k] = v`: overwrite in place when the key is
present (keeping insertion order), append otherwise. -/
def dUpsert {κ α : Type} [DecidableEq κ] : List (κ × α) → κ → α → List (κ × α)
  | [], k, v => [(k, v)]
  | p :: d, k, v => if p.1 = k then (k, v) :: d else p :: dUpsert d k v

namespace CB

/-- Python strings are modelled as lists of characters. -/
abbrev Str := List Char

/-- Character list of a Lean string literal. -/
def strOf (s : String) : Str := s.data

/-- The whitespace characters stripped by Python `str.strip()`. -/
def isPySpace (c : Char) : Bool :=
  c = ' ' || c = '\t' || c = '\n' || c = '\r' || c = '\x0b' || c = '\x0c'

/-- Python `str.strip()`: drop whitespace from both ends. -/
def pyStrip (s : Str) : Str :=
  ((s.dropWhile isPySpace).reverse.dropWhile isPySpace).reverse

/-- Python `text.replace('\n', ' ')` (single-character replacement). -/
def nlToSpace (s : Str) : Str := s.map (fun c => if c = '\n' then ' ' else c)

/-- Python `text.split('. ')`: split at every non-overlapping occurrence of
period-space, scanning left to right; the empty string splits to `[""]`. -/
def splitDot : Str → List Str
  | [] => [[]]
  | '.' :: ' ' :: rest => [] :: splitDot rest
  | c :: rest =>
    match splitDot rest with
    | [] => [[c]]
    | h :: t => (c :: h) :: t

/-- The tiktoken encoder held by `ChunkingStrategy` (third-party library),
kept abstract: an encode/decode pair over token ids. -/
structure Encoder where
  encode : Str → List Nat
  decode : List Nat → Str

/-- The configuration fields of the Python class `ChunkingStrategy`. -/
structure CS where
  chunk_size : Nat
  overlap : Nat
  encoder : Encoder

/-- `ChunkingStrategy.count_tokens`: length of the token encoding. -/
def CS.count_tokens (cs : CS) (text : Str) : Nat := (cs.encoder.encode text).length

/-- One iteration of the sentence loop in
`ChunkingStrategy.split_text_by_tokens`.  State: (emitted chunks, current
chunk, current token count). -/
def splitStep (cs : CS) (maxTokens : Nat) (acc : List Str × Str × Nat) (sraw : Str) :
    List Str × Str × Nat :=
  let chunks := acc.1
  let cur := acc.2.1
  let curTok := acc.2.2
  let s := pyStrip sraw
  if s = [] then (chunks, cur, curTok)
  else
    let s2 := s ++ strOf ". "
    let st := cs.count_tokens s2
    if curTok + st ≤ maxTokens then (chunks, cur ++ s2, curTok + st)
    else if cur = [] then (chunks, s2, st)
    else (chunks ++ [pyStrip cur], s2, st)

/-- `ChunkingStrategy.split_text_by_tokens`. -/
def CS.split_text_by_tokens (cs : CS) (text : Str) (maxTokens : Nat) : List Str :=
  let sentences := splitDot (nlToSpace text)
  let res := sentences.foldl (splitStep cs maxTokens) ([], [], 0)
  if res.2.1 = [] then res.1 else res.1 ++ [pyStrip res.2.1]

/-- The metadata dict attached to a chunk; optional fields model keys that
are present only for some chunk kinds. -/
structure ChunkMeta where
  institution : Str
  doc_type : Str
  page : Int
  chunk_tokens : Nat
  table_id : Option Str := none
  image_path : Option Str := none
  caption : Option Str := none
  has_overlap : Option Bool := none
  deriving DecidableEq, Repr

/-- A chunk record as produced by `ChunkingStrategy`. -/
structure Chunk where
  chunk_id : Str
  content : Str
  metadata : ChunkMeta
  deriving DecidableEq, Repr

/-- A text block handed to `chunk_pages`; `page_num` is read with
`block.get("page_num", 0)`. -/
structure TextBlock where
  text : Str
  page_num : Option Int := none

/-- Append a block text under its page key (the grouping loop of
`chunk_pages`). -/
def addBlock (d : List (Int × List Str)) (p : Int) (t : Str) : List (Int × List Str) :=
  if dMem d p then d.map (fun q => if q.1 = p then (q.1, q.2 ++ [t]) else q)
  else d ++ [(p, [t])]

/-- The `pages_dict` built by `chunk_pages`. -/
def pagesDict (blocks : List TextBlock) : List (Int × List Str) :=
  blocks.foldl (fun d b => addBlock d (b.page_num.getD 0) b.text) []

/-- Python `f"{n:04d}"`: decimal rendering left-padded with zeros to width 4. -/
def padZeros4 (n : Nat) : Str :=
  let s := strOf (toString n)
  List.replicate (4 - s.length) '0' ++ s

/-- Build one text chunk of `chunk_pages` (id `chunk_<counter:04d>`). -/
def textChunkOf (cs : CS) (institution : Str) (page : Int) (counter : Nat)
    (text : Str) : Chunk :=
  { chunk_id := strOf "chunk_" ++ padZeros4 counter
  , content := text
  , metadata :=
    { institution := institution
    , doc_type := strOf "text"
    , page := page
    , chunk_tokens := cs.count_tokens text } }

/-- `ChunkingStrategy.chunk_pages`: group blocks by page, process pages in
ascending page order, split each page text, and number the chunks with a
single document-wide counter starting at 1. -/
def CS.chunk_pages (cs : CS) (blocks : List TextBlock) (institution : Str) :
    List Chunk :=
  let d := pagesDict blocks
  let keys := (d.map Prod.fst).mergeSort (fun a b => decide (a ≤ b))
  let step := fun (acc : List Chunk × Nat) (p : Int) =>
    let texts := (dFind d p).getD []
    let pageText := List.intercalate (strOf "\n") texts
    let pieces := cs.split_text_by_tokens pageText cs.chunk_size
    pieces.foldl
      (fun (acc2 : List Chunk × Nat) t =>
        (acc2.1 ++ [textChunkOf cs institution p acc2.2 t], acc2.2 + 1)) acc
  (keys.foldl step ([], 1)).1

/-- A table record handed to `make_table_to_chunk`; every field is read
with `.get` and a default except `table_id`, which is indexed directly. -/
structure TableData where
  content : Option Str := none
  caption : Option Str := none
  table_id : Option Str := none
  institution : Option Str := none
  page_num : Option Int := none

/-- `ChunkingStrategy.make_table_to_chunk`.  A missing `table_id` raises
`KeyError`; the caption is read into a local variable but never used. -/
def CS.make_table_to_chunk (cs : CS) (td : TableData) : Except Str Chunk :=
  let table_content := td.content.getD []
  let _caption := td.caption.getD []
  match td.table_id with
  | none => Except.error (strOf "KeyError: table_id")
  | some tid =>
    Except.ok
      { chunk_id := strOf "chunk_table_" ++ tid
      , content := table_content
      , metadata :=
        { institution := td.institution.getD (strOf "unknown")
        , doc_type := strOf "table"
        , page := td.page_num.getD 0
        , chunk_tokens := cs.count_tokens table_content
        , table_id := some tid } }

/-- An image record handed to `make_image_to_chunk`. -/
structure ImageData where
  description : Option Str := none
  caption : Option Str := none
  image_path : Option Str := none
  image_filename : Option Str := none
  institution : Option Str := none
  page_num : Option Int := none

/-- `ChunkingStrategy.make_image_to_chunk`: a non-empty caption is
prepended as a bracketed line followed by a blank line. -/
def CS.make_image_to_chunk (cs : CS) (im : ImageData) : Chunk :=
  let image_description := im.description.getD []
  let caption := im.caption.getD []
  let chunk_content :=
    if caption ≠ [] then strOf "[" ++ caption ++ strOf "]\n\n" ++ image_description
    else image_description
  let image_path := im.image_path.getD []
  let image_filename := im.image_filename.getD []
  let image_id :=
    if image_filename ≠ [] then image_filename.map (fun c => if c = '.' then '_' else c)
    else strOf "unknown"
  { chunk_id := strOf "chunk_image_" ++ image_id
  , content := chunk_content
  , metadata :=
    { institution := im.institution.getD (strOf "unknown")
    , doc_type := strOf "image"
    , page := im.page_num.getD 0
    , chunk_tokens := cs.count_tokens chunk_content
    , image_path := some image_path
    , caption := some caption } }

/-- The delimiter inserted before the lookahead text in `apply_overlap`. -/
def previewSep : Str := strOf "\n\n[다음 내용 미리보기]\n"

/-- The truncation marker appended after the lookahead text. -/
def ellipsisMark : Str := strOf "..."

/-- The body of one iteration of `apply_overlap`: a non-text chunk passes
through unchanged; a text chunk gains a lookahead from the next chunk only
when that chunk is text and encodes to strictly more than `overlap`
tokens, and its metadata is rebuilt with `has_overlap` and a recomputed
token count. -/
def overlapOne (cs : CS) (chunk : Chunk) (nxt : Option Chunk) : Chunk :=
  if chunk.metadata.doc_type ≠ strOf "text" then chunk
  else
    let content := chunk.content
    let content :=
      match nxt with
      | some n =>
        if n.metadata.doc_type = strOf "text" then
          let tokens := cs.encoder.encode n.content
          if cs.overlap < tokens.length then
            content ++ previewSep ++ cs.encoder.decode (tokens.take cs.overlap) ++
              ellipsisMark
          else content
        else content
      | none => content
    { chunk with
      content := content
    , metadata :=
      { chunk.metadata with
        has_overlap := some true
      , chunk_tokens := cs.count_tokens content } }

/-- The loop of `apply_overlap`: each chunk is processed together with its
successor (`chunks[i + 1]`), if any. -/
def applyOverlapGo (cs : CS) : List Chunk → List Chunk
  | [] => []
  | [c] => [overlapOne cs c none]
  | c :: d :: rest => overlapOne cs c (some d) :: applyOverlapGo cs (d :: rest)

/-- `ChunkingStrategy.apply_overlap`, including the fast path returning the
input unchanged when the list is empty or `overlap == 0`. -/
def CS.apply_overlap (cs : CS) (chunks : List Chunk) : List Chunk :=
  if chunks = [] ∨ cs.overlap = 0 then chunks else applyOverlapGo cs chunks

/-- Pair every list element with its successor, if any. -/
def pairsWithNext {α : Type} : List α → List (α × Option α)
  | [] => []
  | [c] => [(c, none)]
  | c :: d :: rest => (c, some d) :: pairsWithNext (d :: rest)

end CB

namespace EMb

/-- Embedding vectors (Python float arrays) are modelled over ℚ. -/
abbrev Vec := List ℚ

/-- `np.zeros(dimension)`: the zero-vector fallback. -/
def zeros (n : Nat) : Vec := List.replicate n 0

/-- The OpenAI embedding capability (third-party network call), kept
abstract: a single-text call and a batched call, each either returning
vectors or raising. -/
structure EmbApi where
  embedOne : String → Except String Vec
  embedBatch : List String → Except String (List Vec)

/-- The fields of the Python class `EmbeddingManager` used by its
embedding methods: the MD5 content hash is kept abstract. -/
structure EM where
  hashFn : String → String
  dimension : Nat
  api : EmbApi

/-- The in-memory embedding cache `self.embedding_cache`
(hash → vector). -/
abbrev Cache := List (String × Vec)

/-- `EmbeddingManager.embed_text`: serve from the cache when possible;
otherwise call the API, caching the result on success, and returning a
zero vector (without caching it) when the call raises. -/
def EM.embed_text (M : EM) (cache : Cache) (text : String) : Vec × Cache :=
  let h := M.hashFn text
  match dFind cache h with
  | some v => (v, cache)
  | none =>
    match M.api.embedOne text with
    | Except.ok emb => (emb, dUpsert cache h emb)
    | Except.error _ => (zeros M.dimension, cache)

/-- The fields of a chunk record read by `embed_chunks`. -/
structure ChunkRec where
  chunk_id : String
  content : String

/-- The batch slicing `chunks[i:i+batch_size]` of `embed_chunks`; a zero
batch size raises in Python (`range` step 0) and yields no batches here. -/
def batchesPos {α : Type} (bs : Nat) : List α → List (List α)
  | [] => []
  | a :: l => List.take bs (a :: l) :: batchesPos bs (List.drop (bs - 1) l)
termination_by l => l.length
decreasing_by simp [List.length_drop]; omega

/-- Slice a list into consecutive batches of size `bs`. -/
def batches {α : Type} (bs : Nat) (l : List α) : List (List α) :=
  if bs = 0 then [] else batchesPos bs l

/-- The cache-hit pass of one batch in `embed_chunks`: returns the
partially filled embedding slots, the texts still to embed, and their
positions within the batch. -/
def hitPass (M : EM) (cache : Cache) (batchTexts : List String) :
    List (Option Vec) × List String × List Nat :=
  batchTexts.enum.foldl
    (fun acc p =>
      match dFind cache (M.hashFn p.2) with
      | some v => (acc.1 ++ [some v], acc.2.1, acc.2.2)
      | none => (acc.1 ++ [none], acc.2.1 ++ [p.2], acc.2.2 ++ [p.1]))
    ([], [], [])

/-- Fill slot `i` of the batch with vector `v`. -/
def fillAt (bes : List (Option Vec)) (i : Nat) (v : Vec) : List (Option Vec) :=
  bes.set i (some v)

/-- Processing of one batch in `embed_chunks`: cache hits are filled
first; the remaining texts go to one batched API call whose results are
filled positionally and written into the cache; if the call raises, every
still-unresolved slot is filled with a zero vector and the cache is not
touched. -/
def processBatch (M : EM) (cache : Cache) (batchTexts : List String) :
    List (Option Vec) × Cache :=
  let h := hitPass M cache batchTexts
  let bes := h.1
  let toEmbed := h.2.1
  let idxs := h.2.2
  if toEmbed = [] then (bes, cache)
  else
    match M.api.embedBatch toEmbed with
    | Except.ok outs =>
      (List.zip (List.zip toEmbed idxs) outs).foldl
        (fun acc p =>
          (fillAt acc.1 p.1.2 p.2, dUpsert acc.2 (M.hashFn p.1.1) p.2))
        (bes, cache)
    | Except.error _ =>
      (idxs.foldl
        (fun bes2 i => if bes2.get? i = some none then fillAt bes2 i (zeros M.dimension) else bes2)
        bes, cache)

/-- `EmbeddingManager.embed_chunks`: process the chunk list batch by
batch, accumulating the embedding slots and the chunk ids in order. -/
def EM.embed_chunks (M : EM) (cache : Cache) (chunks : List ChunkRec)
    (batch_size : Nat) : List (Option Vec) × List String × Cache :=
  (batches batch_size chunks).foldl
    (fun acc batch =>
      let r := processBatch M acc.2.2 (batch.map (fun ch => ch.content))
      (acc.1 ++ r.1, acc.2.1 ++ batch.map (fun ch => ch.chunk_id), r.2))
    ([], [], cache)

/-- `EmbeddingManager.load_index`: `None` when the file is missing or
`faiss.read_index` raises, otherwise the parsed index; no validation
beyond parsing.  The file argument models the file system: `none` means
the path does not exist, and the inner value is the parse outcome. -/
def load_index (file : Option (Except String (List Vec))) : Option (List Vec) :=
  match file with
  | none => none
  | some (Except.error _) => none
  | some (Except.ok idx) => some idx

/-- One entry of the persisted metadata array (`metadata.json`), with an
opaque payload type for the nested chunk metadata. -/
structure MetaEntry (μ : Type) where
  index : Nat
  chunk_id : String
  content : String
  metadata : μ

/-- `EmbeddingManager.load_metadata`: `None` when the file is missing or
parsing raises, otherwise the parsed entry list; no validation beyond
parsing and in particular no comparison against the index length. -/
def load_metadata {μ : Type} (file : Option (Except String (List (MetaEntry μ)))) :
    Option (List (MetaEntry μ)) :=
  match file with
  | none => none
  | some (Except.error _) => none
  | some (Except.ok md) => some md

end EMb

namespace SE

open EMb

/-- A chunk record as held by the search engine (`self.chunks`), with an
opaque metadata payload. -/
structure ChunkRecS (μ : Type) where
  chunk_id : String
  content : String
  metadata : μ

/-- A search result dict; `rrf_score` models the key added only by the
fusion step. -/
structure SearchResult (μ : Type) where
  rank : Nat
  chunk_id : String
  content : String
  metadata : μ
  score : ℚ
  search_type : String
  rrf_score : Option ℚ := none

instance {μ : Type} [Inhabited μ] : Inhabited (SearchResult μ) :=
  ⟨{ rank := 0, chunk_id := "", content := "", metadata := default, score := 0,
     search_type := "" }⟩

/-- Squared L2 distance, the metric reported by `faiss.IndexFlatL2`. -/
def sqDist (a b : Vec) : ℚ := ((a.zip b).map (fun p => (p.1 - p.2) ^ 2)).sum

/-- The distance FAISS reports for padding entries (FLT_MAX). -/
def padDistance : ℚ := (2 : ℚ) ^ 128

/-- Model of the documented semantics of `faiss.IndexFlatL2.search`
(third-party library): exact search returning the k nearest stored
vectors in ascending order of squared L2 distance; when fewer than k
vectors are stored, the result is padded to length k with index -1 and
distance FLT_MAX. -/
def faissSearch (index : List Vec) (q : Vec) (k : Nat) : List (Int × ℚ) :=
  let scored := index.enum.map (fun p => ((p.1 : Int), sqDist q p.2))
  let sorted := scored.mergeSort (fun a b => decide (a.2 ≤ b.2))
  let res := sorted.take k
  res ++ List.replicate (k - res.length) (-1, padDistance)

/-- Python list indexing `l[i]` including negative indices (an index out
of range raises, modelled as `none`). -/
def pyGet {α : Type} (l : List α) (i : Int) : Option α :=
  if 0 ≤ i then l.get? i.toNat
  else if 0 ≤ (l.length : Int) + i then l.get? ((l.length : Int) + i).toNat
  else none

/-- The state of the Python class `SearchEngine`; the BM25 scorer built at
construction time (third-party rank_bm25) is kept abstract as a function
from tokenized query to per-document scores. -/
structure Engine (μ : Type) where
  faiss_index : List Vec
  metadata : List (MetaEntry μ)
  chunks : List (ChunkRecS μ)
  embedding_manager : Option EM
  bm25Scores : List String → List ℚ

/-- The word-character predicate of `re.findall(r'\w+', ...)`; non-ASCII
codepoints are treated as word characters (the corpora are Korean). -/
def isWordChar (c : Char) : Bool := c.isAlphanum || c = '_' || decide (128 ≤ c.toNat)

/-- `SearchEngine._tokenize_korean`: lowercase, then the maximal runs of
word characters. -/
def tokenizeKorean (text : String) : List String :=
  (((text.data.map Char.toLower).splitOnP (fun c => !(isWordChar c))).filter
    (fun r => r ≠ [])).map (fun r => String.mk r)

/-- The result-building loop of `SearchEngine.vector_search`: ranks count
every (index, distance) pair; pairs whose index is below the metadata
length survive the guard — including FAISS's -1 padding, which Python
resolves to the *last* metadata entry. -/
def buildVecResults {μ : Type} (metadata : List (MetaEntry μ))
    (pairs : List (Int × ℚ)) : List (SearchResult μ) :=
  pairs.enum.foldl
    (fun acc p =>
      if p.2.1 < (metadata.length : Int) then
        match pyGet metadata p.2.1 with
        | some e =>
          acc ++ [{ rank := p.1 + 1
                  , chunk_id := e.chunk_id
                  , content := e.content
                  , metadata := e.metadata
                  , score := 1 / (1 + p.2.2)
                  , search_type := "vector" }]
        | none => acc
      else acc)
    []

/-- `SearchEngine.vector_search`: raise when no embedding manager is
present; otherwise embed the query (threading the embedding cache) and
build results from the FAISS search. -/
def Engine.vector_search {μ : Type} (E : Engine μ) (cache : Cache)
    (query : String) (top_k : Nat) :
    Except String (List (SearchResult μ) × Cache) :=
  match E.embedding_manager with
  | none => Except.error "EmbeddingManager required"
  | some M =>
    let r := M.embed_text cache query
    Except.ok (buildVecResults E.metadata (faissSearch E.faiss_index r.1 top_k), r.2)

/-- `np.argsort` over the score list, ascending (modelled as a stable
sort). -/
def argsortAsc (scores : List ℚ) : List Nat :=
  ((scores.enum.mergeSort (fun a b => decide (a.2 ≤ b.2))).map Prod.fst)

/-- `SearchEngine.keyword_search`: score the corpus, take the `top_k`
highest-scoring document positions, and keep those with strictly positive
score; ranks count every kept position slot. -/
def Engine.keyword_search {μ : Type} (E : Engine μ) (query : String)
    (top_k : Nat) : List (SearchResult μ) :=
  let scores := E.bm25Scores (tokenizeKorean query)
  let top := ((argsortAsc scores).reverse).take top_k
  top.enum.foldl
    (fun acc p =>
      if 0 < (scores.get? p.2).getD 0 then
        match E.chunks.get? p.2 with
        | some c =>
          acc ++ [{ rank := p.1 + 1
                  , chunk_id := c.chunk_id
                  , content := c.content
                  , metadata := c.metadata
                  , score := (scores.get? p.2).getD 0
                  , search_type := "keyword" }]
        | none => acc
      else acc)
    []

/-- The RRF contribution of one occurrence: `1 / (k + rank)`. -/
def rrfTerm (k : Nat) (rank : Nat) : ℚ := 1 / ((k : ℚ) + (rank : ℚ))

/-- The vector-results pass of `reciprocal_rank_fusion`: accumulate the
score and store the result under its chunk id (overwriting). -/
def vecPass {μ : Type} (k : Nat)
    (acc : List (String × ℚ) × List (String × SearchResult μ))
    (r : SearchResult μ) :
    List (String × ℚ) × List (String × SearchResult μ) :=
  let s := (dFind acc.1 r.chunk_id).getD 0 + rrfTerm k r.rank
  (dUpsert acc.1 r.chunk_id s, dUpsert acc.2 r.chunk_id r)

/-- The keyword-results pass of `reciprocal_rank_fusion`: accumulate the
score; store the result only when the chunk id is not yet present. -/
def keyPass {μ : Type} (k : Nat)
    (acc : List (String × ℚ) × List (String × SearchResult μ))
    (r : SearchResult μ) :
    List (String × ℚ) × List (String × SearchResult μ) :=
  let s := (dFind acc.1 r.chunk_id).getD 0 + rrfTerm k r.rank
  (dUpsert acc.1 r.chunk_id s,
   if dMem acc.2 r.chunk_id then acc.2 else acc.2 ++ [(r.chunk_id, r)])

/-- `SearchEngine.reciprocal_rank_fusion`: accumulate `1/(k + rank)` per
occurrence into a dict keyed by chunk id, sort its items by score
descending (Python's stable sort), and re-rank densely. -/
def reciprocal_rank_fusion {μ : Type} [Inhabited μ]
    (vres kres : List (SearchResult μ)) (k : Nat) : List (SearchResult μ) :=
  let st1 := vres.foldl (vecPass k) ([], [])
  let st2 := kres.foldl (keyPass k) st1
  let sorted := st2.1.mergeSort (fun a b => decide (b.2 ≤ a.2))
  sorted.enum.map
    (fun p =>
      match dFind st2.2 p.2.1 with
      | some r =>
        { r with rank := p.1 + 1, rrf_score := some p.2.2, search_type := "hybrid" }
      | none => default)

/-- `SearchEngine.hybrid_search`: fetch `top_k * 2` results from each
sub-search, fuse them with RRF constant 60, and return the first `top_k`
fused results. -/
def Engine.hybrid_search {μ : Type} [Inhabited μ] (E : Engine μ) (cache : Cache)
    (query : String) (top_k : Nat) :
    Except String (List (SearchResult μ) × Cache) :=
  match E.vector_search cache query (top_k * 2) with
  | Except.error e => Except.error e
  | Except.ok vr =>
    let keyword_results := E.keyword_search query (top_k * 2)
    Except.ok ((reciprocal_rank_fusion vr.1 keyword_results 60).take top_k, vr.2)

end SE

section DictLemmas

variable {κ α : Type} [DecidableEq κ]

theorem dFind_dUpsert_self : ∀ (d : List (κ × α)) (k : κ) (v : α),
    dFind (dUpsert d k v) k = some v
  | [], k, v => by simp [dUpsert, dFind]
  | p :: d, k, v => by
    by_cases h : p.1 = k
    · simp [dUpsert, h, dFind]
    · simp [dUpsert, h, dFind, dFind_dUpsert_self d k v]

theorem dFind_dUpsert_ne : ∀ (d : List (κ × α)) (k k' : κ) (v : α), k' ≠ k →
    dFind (dUpsert d k v) k' = dFind d k'
  | [], k, k', v, h => by simp [dUpsert, dFind, Ne.symm h]
  | p :: d, k, k', v, h => by
    by_cases hp : p.1 = k
    · have h1 : ¬ k = k' := Ne.symm h
      have h2 : ¬ p.1 = k' := by rw [hp]; exact h1
      simp [dUpsert, hp, dFind, h1, h2]
    · have he : dUpsert (p :: d) k v = p :: dUpsert d k v := by simp [dUpsert, hp]
      rw [he]
      by_cases hp' : p.1 = k'
      · simp [dFind, hp']
      · simp [dFind, hp', dFind_dUpsert_ne d k k' v h]

theorem keys_dUpsert : ∀ (d : List (κ × α)) (k : κ) (v : α),
    (dUpsert d k v).map Prod.fst =
      if dMem d k then d.map Prod.fst else d.map Prod.fst ++ [k]
  | [], k, v => by simp [dUpsert, dMem]
  | p :: d, k, v => by
    by_cases h : p.1 = k
    · simp [dUpsert, h, dMem]
    · simp [dUpsert, h, dMem, keys_dUpsert d k v]
      by_cases hm : dMem d k <;> simp [hm]

theorem dMem_iff_mem_keys : ∀ (d : List (κ × α)) (k : κ),
    dMem d k = true ↔ k ∈ d.map Prod.fst
  | [], k => by simp [dMem]
  | p :: d, k => by
    by_cases h : p.1 = k
    · simp [dMem, h]
    · have h' : ¬ k = p.1 := fun hh => h hh.symm
      simp [dMem, h, h', dMem_iff_mem_keys d k]

theorem dFind_mem : ∀ (d : List (κ × α)) (k : κ) (v : α),
    dFind d k = some v → (k, v) ∈ d
  | [], k, v => by simp [dFind]
  | p :: d, k, v => by
    by_cases h : p.1 = k
    · intro hf
      simp [dFind, h] at hf
      subst h hf
      simp
    · intro hf
      simp [dFind, h] at hf
      exact List.mem_cons_of_mem _ (dFind_mem d k v hf)

theorem dFind_isSome_of_mem_keys : ∀ (d : List (κ × α)) (k : κ),
    k ∈ d.map Prod.fst → ∃ v, dFind d k = some v
  | [], k => by simp
  | p :: d, k => by
    intro hm
    by_cases h : p.1 = k
    · exact ⟨p.2, by simp [dFind, h]⟩
    · have hm' : k ∈ d.map Prod.fst := by
        have h' : ¬ k = p.1 := fun hh => h hh.symm
        simpa [h'] using hm
      obtain ⟨v, hv⟩ := dFind_isSome_of_mem_keys d k hm'
      exact ⟨v, by simp [dFind, h, hv]⟩

theorem mem_dUpsert : ∀ (d : List (κ × α)) (k : κ) (v : α) (p : κ × α),
    p ∈ dUpsert d k v → p ∈ d ∨ p = (k, v)
  | [], k, v, p => by
    intro hp
    simp [dUpsert] at hp
    exact Or.inr hp
  | q :: d, k, v, p => by
    intro hp
    by_cases h : q.1 = k
    · simp [dUpsert, h] at hp
      rcases hp with rfl | hp
      · exact Or.inr rfl
      · exact Or.inl (List.mem_cons_of_mem _ hp)
    · simp [dUpsert, h] at hp
      rcases hp with rfl | hp
      · exact Or.inl (List.mem_cons_self _ _)
      · rcases mem_dUpsert d k v p hp with h' | h'
        · exact Or.inl (List.mem_cons_of_mem _ h')
        · exact Or.inr h'

theorem nodup_keys_dUpsert (d : List (κ × α)) (k : κ) (v : α)
    (h : (d.map Prod.fst).Nodup) : ((dUpsert d k v).map Prod.fst).Nodup := by
  rw [keys_dUpsert]
  by_cases hm : dMem d k
  · simpa [hm]
  · have hk : k ∉ d.map Prod.fst := fun hin => hm ((dMem_iff_mem_keys d k).2 hin)
    simp [hm, List.nodup_append, h, hk]

theorem foldlInv {α β : Type} (P : β → Prop) {f : β → α → β} :
    ∀ (l : List α) (b : β), P b → (∀ c a, P c → P (f c a)) → P (l.foldl f b)
  | [], _, hb, _ => hb
  | a :: l, b, hb, hf => foldlInv P l (f b a) (hf b a hb) hf

end DictLemmas

open CB EMb SE

/-- A concrete tiktoken instance for concrete runs: one token per
character (consistent with the real encoder on the short ASCII inputs
used below). -/
def charEnc : Encoder :=
  { encode := fun s => s.map Char.toNat
  , decode := fun ts => ts.map Char.ofNat }

/-- A concrete `ChunkingStrategy` configuration. -/
def cs1 : CS := { chunk_size := 10, overlap := 1, encoder := charEnc }

/-- A concrete text chunk. -/
def cA : Chunk :=
  { chunk_id := strOf "c1", content := strOf "A"
  , metadata :=
    { institution := strOf "hd", doc_type := strOf "text", page := 1
    , chunk_tokens := 1 } }

/-- A second concrete text chunk whose content is a single token. -/
def cB : Chunk :=
  { chunk_id := strOf "c2", content := strOf "B"
  , metadata :=
    { institution := strOf "hd", doc_type := strOf "text", page := 1
    , chunk_tokens := 1 } }

/-- A concrete text chunk with more tokens than `cs1.overlap`. -/
def cLong : Chunk :=
  { chunk_id := strOf "c3", content := strOf "XYZ"
  , metadata :=
    { institution := strOf "hd", doc_type := strOf "text", page := 1
    , chunk_tokens := 3 } }

/-- A concrete table record carrying a non-empty caption. -/
def tdCap : TableData :=
  { content := some (strOf "desc"), caption := some (strOf "Cap")
  , table_id := some (strOf "t1") }

/-- Claim C9 counterexample: a persisted index holding two vectors and a
persisted metadata array holding one entry are both loaded and returned
with no error raised at load time, in a desynchronized state (lengths 2
and 1); the claimed hard load-time length check does not exist. -/
theorem claimC9_counterexample :
    load_index (some (Except.ok [[(0 : ℚ)], [1]])) = some [[0], [1]] ∧
    load_metadata
        (some (Except.ok
          [({ index := 0, chunk_id := "c0", content := "x", metadata := () } :
            MetaEntry Unit)])) =
      some [{ index := 0, chunk_id := "c0", content := "x", metadata := () }] ∧
    (2 : Nat) ≠ 1 := by
  refine ⟨rfl, rfl, by decide⟩

/-- Claim C9 (amended): `load_index` and `load_metadata` each return the
parsed artifact independently — `none` exactly when the file is absent or
parsing raises — and perform no cross-check of the two lengths, so a
desynchronized pair is handed back without error. -/
theorem claimC9_theorem (μ : Type) (idx : List Vec) (md : List (MetaEntry μ))
    (e e' : String) :
    load_index (some (Except.ok idx)) = some idx ∧
    load_metadata (some (Except.ok md)) = some md ∧
    load_index none = none ∧
    @load_metadata μ none = none ∧
    load_index (some (Except.error e)) = none ∧
    @load_metadata μ (some (Except.error e')) = none :=
  ⟨rfl, rfl, rfl, rfl, rfl, rfl⟩

/-- Claim C7: evaluating `make_table_to_chunk` on a table record with a
non-empty caption shows the caption is not prepended to the content (the
code reads the caption into a dead local and ignores it), while the
claimed id scheme, doc_type, hard error on a missing table id, and the
page/institution defaults all hold. -/
theorem claimC7_theorem :
    cs1.make_table_to_chunk tdCap =
      Except.ok
        { chunk_id := strOf "chunk_table_t1"
        , content := strOf "desc"
        , metadata :=
          { institution := strOf "unknown"
          , doc_type := strOf "table"
          , page := 0
          , chunk_tokens := 4
          , table_id := some (strOf "t1") } } ∧
    strOf "desc" ≠ strOf "[Cap]\n\ndesc" ∧
    (cs1.make_table_to_chunk { content := some (strOf "desc") }).toOption = none := by
  refine ⟨rfl, by decide, rfl⟩

/-- A concrete embedding manager whose API always raises. -/
def em1 : EM :=
  { hashFn := fun s => s
  , dimension := 1
  , api :=
    { embedOne := fun _ => Except.error "down"
    , embedBatch := fun _ => Except.error "down" } }

/-- A one-entry metadata array. -/
def md1U : List (MetaEntry Unit) :=
  [{ index := 0, chunk_id := "c0", content := "x", metadata := () }]

/-- A concrete engine holding a single 1-dimensional vector. -/
def eng1 : Engine Unit :=
  { faiss_index := [[0]]
  , metadata := md1U
  , chunks := []
  , embedding_manager := some em1
  , bm25Scores := fun _ => [] }

/-- Claim C5: with one stored vector and one metadata entry, searching
with k = 2 returns two results, because the FAISS padding index -1
passes the `idx < len(metadata)` guard and Python resolves
`metadata[-1]` to the last entry — duplicating the real result instead
of returning fewer than k results over real positions. -/
theorem claimC5_theorem :
    eng1.faiss_index.length = 1 ∧
    (eng1.vector_search [("q", [0])] "q" 2).toOption.map
        (fun r => r.1.map (fun x => (x.rank, x.chunk_id))) =
      some [(1, "c0"), (2, "c0")] := by
  constructor
  · rfl
  · simp only [eng1, em1, md1U, Engine.vector_search, EM.embed_text, dFind,
      faissSearch, List.mergeSort, sqDist]
    norm_num [buildVecResults, pyGet, List.enum, List.enumFrom, padDistance,
      Except.toOption]

/-- Claim C1 counterexample: the embedding capability raises for the
query, yet `vector_search` returns an ok result list (built from the
zero-vector fallback) instead of surfacing the failure. -/
theorem claimC1_counterexample :
    em1.api.embedOne "q" = Except.error "down" ∧
    eng1.embedding_manager = some em1 ∧
    (eng1.vector_search [] "q" 2).isOk = true := by
  refine ⟨rfl, rfl, ?_⟩
  simp [eng1, em1, Engine.vector_search, EM.embed_text, dFind, Except.isOk,
    Except.toBool]

/-- Claim C1 (amended): when the embedding capability raises for an
uncached query, `embed_text` swallows the failure and returns a zero
vector, and `vector_search` returns an ok result — the nearest
neighbours of the zero vector — with the cache untouched, rather than
raising. -/
theorem claimC1_theorem {μ : Type} (E : Engine μ) (M : EM) (cache : Cache)
    (q : String) (k : Nat) (e : String)
    (hM : E.embedding_manager = some M)
    (hfail : M.api.embedOne q = Except.error e)
    (hmiss : dFind cache (M.hashFn q) = none) :
    E.vector_search cache q k =
      Except.ok
        (buildVecResults E.metadata
          (faissSearch E.faiss_index (zeros M.dimension) k), cache) := by
  simp [Engine.vector_search, hM, EM.embed_text, hmiss, hfail]

/-- Claim C1 witness: the amended statement at the concrete failing
engine. -/
theorem claimC1_witness :
    eng1.vector_search [] "q" 2 =
      Except.ok
        (buildVecResults eng1.metadata
          (faissSearch eng1.faiss_index (zeros em1.dimension) 2), []) :=
  claimC1_theorem eng1 em1 [] "q" 2 "down" rfl rfl rfl

theorem pairsWithNext_length {α : Type} : ∀ l : List α,
    (pairsWithNext l).length = l.length
  | [] => rfl
  | [_] => rfl
  | _ :: d :: rest => by
    simp [pairsWithNext, pairsWithNext_length (d :: rest)]

theorem pairsWithNext_getElem? {α : Type} : ∀ (l : List α) (i : Nat),
    (pairsWithNext l)[i]? = l[i]?.map (fun c => (c, l[i + 1]?))
  | [], i => by simp [pairsWithNext]
  | [c], 0 => by simp [pairsWithNext]
  | [c], (i + 1) => by simp [pairsWithNext]
  | c :: d :: rest, 0 => by simp [pairsWithNext]
  | c :: d :: rest, (i + 1) => by
    simpa [pairsWithNext] using pairsWithNext_getElem? (d :: rest) i

theorem applyOverlapGo_eq (cs : CS) : ∀ l : List Chunk,
    applyOverlapGo cs l = (pairsWithNext l).map (fun p => overlapOne cs p.1 p.2)
  | [] => rfl
  | [c] => rfl
  | c :: d :: rest => by
    simp [applyOverlapGo, pairsWithNext, applyOverlapGo_eq cs (d :: rest)]

/-- Element-wise description of `apply_overlap` outside the fast path:
position i of the output is `overlapOne` of position i of the input and
its successor. -/
theorem apply_overlap_get? (cs : CS) (chunks : List Chunk) (hov : cs.overlap ≠ 0)
    (i : Nat) (c : Chunk) (hc : chunks.get? i = some c) :
    (cs.apply_overlap chunks).get? i =
      some (overlapOne cs c (chunks.get? (i + 1))) := by
  have hne : chunks ≠ [] := by
    intro h
    subst h
    simp at hc
  rw [List.get?_eq_getElem?] at hc
  have h1 : cs.apply_overlap chunks =
      (pairsWithNext chunks).map (fun p => overlapOne cs p.1 p.2) := by
    simp [CS.apply_overlap, hne, hov, applyOverlapGo_eq]
  rw [h1, List.get?_eq_getElem?, List.getElem?_map, pairsWithNext_getElem?, hc,
    List.get?_eq_getElem?]
  rfl

/-- Claim C4 counterexample: with overlap 1, a text chunk followed by a
text chunk of a single token receives no lookahead at all — its content
is returned unchanged, not extended with the delimited lookahead the
claim requires. -/
theorem claimC4_counterexample :
    0 < cs1.overlap ∧
    cA.metadata.doc_type = strOf "text" ∧
    cB.metadata.doc_type = strOf "text" ∧
    (cs1.apply_overlap [cA, cB]).map (fun c => c.content) =
      [strOf "A", strOf "B"] ∧
    strOf "A" ≠
      strOf "A" ++ previewSep ++
        cs1.encoder.decode ((cs1.encoder.encode cB.content).take cs1.overlap) ++
        ellipsisMark := by
  refine ⟨by decide, by decide, by decide, by decide, by decide⟩

/-- Claim C4 (amended): when `overlap > 0`, `apply_overlap` preserves the
list length; table/image chunks pass through unmodified (they never
receive a lookahead); a text chunk followed by a text chunk gains the
delimited lookahead of the first `overlap` tokens plus truncation marker
only when the next content encodes to strictly more than `overlap`
tokens, and keeps its content unchanged otherwise; and a text chunk whose
successor is absent or not text keeps its content unchanged (non-text
chunks never contribute a lookahead). -/
theorem claimC4_theorem (cs : CS) (chunks : List Chunk) (hov : 0 < cs.overlap) :
    ((cs.apply_overlap chunks).length = chunks.length) ∧
    (∀ i c, chunks.get? i = some c → c.metadata.doc_type ≠ strOf "text" →
      (cs.apply_overlap chunks).get? i = some c) ∧
    (∀ i c n, chunks.get? i = some c → chunks.get? (i + 1) = some n →
      c.metadata.doc_type = strOf "text" → n.metadata.doc_type = strOf "text" →
      cs.overlap < (cs.encoder.encode n.content).length →
      ∃ c', (cs.apply_overlap chunks).get? i = some c' ∧
        c'.content = c.content ++ previewSep ++
          cs.encoder.decode ((cs.encoder.encode n.content).take cs.overlap) ++
          ellipsisMark) ∧
    (∀ i c n, chunks.get? i = some c → chunks.get? (i + 1) = some n →
      c.metadata.doc_type = strOf "text" → n.metadata.doc_type = strOf "text" →
      (cs.encoder.encode n.content).length ≤ cs.overlap →
      ∃ c', (cs.apply_overlap chunks).get? i = some c' ∧
        c'.content = c.content) ∧
    (∀ i c, chunks.get? i = some c → c.metadata.doc_type = strOf "text" →
      (chunks.get? (i + 1) = none ∨
        ∃ n, chunks.get? (i + 1) = some n ∧
          n.metadata.doc_type ≠ strOf "text") →
      ∃ c', (cs.apply_overlap chunks).get? i = some c' ∧
        c'.content = c.content) := by
  have hov' : cs.overlap ≠ 0 := Nat.pos_iff_ne_zero.1 hov
  refine ⟨?_, ?_, ?_, ?_, ?_⟩
  · by_cases hne : chunks = []
    · subst hne
      simp [CS.apply_overlap]
    · simp [CS.apply_overlap, hne, hov', applyOverlapGo_eq,
        pairsWithNext_length]
  · intro i c hc hdt
    rw [apply_overlap_get? cs chunks hov' i c hc]
    simp [overlapOne, hdt]
  · intro i c n hc hn hdt hndt htok
    have hget := apply_overlap_get? cs chunks hov' i c hc
    rw [hn] at hget
    refine ⟨overlapOne cs c (some n), hget, ?_⟩
    simp [overlapOne, hdt, hndt, htok]
  · intro i c n hc hn hdt hndt htok
    have hget := apply_overlap_get? cs chunks hov' i c hc
    rw [hn] at hget
    refine ⟨overlapOne cs c (some n), hget, ?_⟩
    simp [overlapOne, hdt, hndt, Nat.not_lt.2 htok]
  · intro i c hc hdt hnext
    have hget := apply_overlap_get? cs chunks hov' i c hc
    rcases hnext with hnone | ⟨n, hn, hndt⟩
    · rw [hnone] at hget
      refine ⟨overlapOne cs c none, hget, ?_⟩
      simp [overlapOne, hdt]
    · rw [hn] at hget
      refine ⟨overlapOne cs c (some n), hget, ?_⟩
      simp [overlapOne, hdt, hndt]

/-- Claim C4 witness: the amended statement at a concrete pair of text
chunks where the successor has more tokens than the overlap. -/
theorem claimC4_witness :
    ∃ c', (cs1.apply_overlap [cA, cLong]).get? 0 = some c' ∧
      c'.content = cA.content ++ previewSep ++
        cs1.encoder.decode ((cs1.encoder.encode cLong.content).take cs1.overlap) ++
        ellipsisMark :=
  (claimC4_theorem cs1 [cA, cLong] (by decide)).2.2.1 0 cA cLong (by decide)
    (by decide) (by decide) (by decide) (by decide)

/-- Every chunk built by `chunk_pages` is a text chunk whose recorded
token count is the token count of its content. -/
theorem chunk_pages_inv (cs : CS) (blocks : List TextBlock) (inst : Str) :
    ∀ c ∈ cs.chunk_pages blocks inst,
      c.metadata.doc_type = strOf "text" ∧
      c.metadata.chunk_tokens = cs.count_tokens c.content := by
  simp only [CS.chunk_pages]
  refine foldlInv (fun acc : List Chunk × Nat => ∀ c ∈ acc.1,
    c.metadata.doc_type = strOf "text" ∧
    c.metadata.chunk_tokens = cs.count_tokens c.content) _ _ (by simp) ?_
  intro acc p hacc
  refine foldlInv (fun acc : List Chunk × Nat => ∀ c ∈ acc.1,
    c.metadata.doc_type = strOf "text" ∧
    c.metadata.chunk_tokens = cs.count_tokens c.content) _ _ hacc ?_
  intro acc2 t hacc2 c hc
  rcases List.mem_append.1 hc with h | h
  · exact hacc2 c h
  · rcases List.mem_singleton.1 h with rfl
    exact ⟨rfl, rfl⟩

/-- Claim C6: after `apply_overlap`, every text chunk's recorded token
count equals the token count of its (possibly overlap-extended) content —
the count is recomputed for every text chunk it touches, and on the
`overlap == 0` fast path the invariant carries over from the input, which
`chunk_pages` establishes for every text chunk it builds. -/
theorem claimC6_theorem (cs : CS) :
    (∀ chunks : List Chunk,
      (∀ c ∈ chunks, c.metadata.doc_type = strOf "text" →
        c.metadata.chunk_tokens = cs.count_tokens c.content) →
      ∀ c ∈ cs.apply_overlap chunks, c.metadata.doc_type = strOf "text" →
        c.metadata.chunk_tokens = cs.count_tokens c.content) ∧
    (∀ (blocks : List TextBlock) (inst : Str), ∀ c ∈ cs.chunk_pages blocks inst,
      c.metadata.chunk_tokens = cs.count_tokens c.content) := by
  constructor
  · intro chunks hin c hc hdt
    by_cases hfast : chunks = [] ∨ cs.overlap = 0
    · rw [CS.apply_overlap, if_pos hfast] at hc
      exact hin c hc hdt
    · rw [CS.apply_overlap, if_neg hfast, applyOverlapGo_eq] at hc
      rcases List.mem_map.1 hc with ⟨p, _, rfl⟩
      by_cases hp : p.1.metadata.doc_type ≠ strOf "text"
      · rw [overlapOne, if_pos hp] at hdt ⊢
        exact absurd hdt hp
      · rw [overlapOne, if_neg hp]
  · intro blocks inst c hc
    exact (chunk_pages_inv cs blocks inst c hc).2

/-- Claim C6 witness: the first overlap-processed chunk of a concrete
text-chunk pair carries the token count of its extended content. -/
theorem claimC6_witness :
    (overlapOne cs1 cA (some cB)).metadata.chunk_tokens =
      cs1.count_tokens (overlapOne cs1 cA (some cB)).content :=
  (claimC6_theorem cs1).1 [cA, cB] (by decide) (overlapOne cs1 cA (some cB))
    (by decide) (by decide)

/-- Membership-aware fold invariant. -/
theorem foldlInvMem {α β : Type} (P : β → Prop) {f : β → α → β} :
    ∀ (l : List α) (b : β), P b → (∀ c a, a ∈ l → P c → P (f c a)) →
      P (l.foldl f b)
  | [], _, hb, _ => hb
  | a :: l, b, hb, hf =>
    foldlInvMem P l (f b a) (hf b a (List.mem_cons_self a l) hb)
      (fun c x hx hc => hf c x (List.mem_cons_of_mem a hx) hc)

/-- The vector `v` was actually returned by the embedding capability,
either by a single-text call or inside a successful batched call. -/
def Returned (M : EM) (v : Vec) : Prop :=
  (∃ t, M.api.embedOne t = Except.ok v) ∨
  (∃ ts outs, M.api.embedBatch ts = Except.ok outs ∧ v ∈ outs)

/-- Every vector stored in the cache was returned by the capability; in
particular no zero-vector fallback value is cached unless the capability
itself produced it. -/
def GoodCache (M : EM) (c : Cache) : Prop := ∀ p ∈ c, Returned M p.2

theorem GoodCache_dUpsert (M : EM) (c : Cache) (k : String) (v : Vec)
    (h : GoodCache M c) (hv : Returned M v) : GoodCache M (dUpsert c k v) := by
  intro p hp
  rcases mem_dUpsert c k v p hp with h' | h'
  · exact h p h'
  · rw [h']
    exact hv

theorem processBatch_good (M : EM) (cache : Cache) (bt : List String)
    (h : GoodCache M cache) : GoodCache M (processBatch M cache bt).2 := by
  unfold processBatch
  rcases hemp : (hitPass M cache bt).2.1 with _ | ⟨t0, ts0⟩
  · simpa [hemp] using h
  · rcases hb : M.api.embedBatch (t0 :: ts0) with e | outs
    · simp only [hemp, hb]
      simpa using h
    · simp only [hemp, hb]
      refine foldlInvMem (fun acc : List (Option Vec) × Cache =>
        GoodCache M acc.2) _ _ h ?_
      intro acc p hp hacc
      refine GoodCache_dUpsert M acc.2 _ _ hacc (Or.inr ⟨t0 :: ts0, outs, hb, ?_⟩)
      exact (List.of_mem_zip hp).2

/-- Claim C10: the embedding cache only ever stores vectors actually
returned by the embedding capability — `embed_text` and `embed_chunks`
preserve this invariant, writing only API-returned vectors and never the
zero-vector fallback — and a failed single-text call leaves the cache
unchanged, so a later request for the same text goes back upstream. -/
theorem claimC10_theorem (M : EM) :
    (∀ (cache : Cache) (t : String), GoodCache M cache →
      GoodCache M (M.embed_text cache t).2) ∧
    (∀ (cache : Cache) (chunks : List ChunkRec) (bs : Nat), GoodCache M cache →
      GoodCache M (M.embed_chunks cache chunks bs).2.2) ∧
    (∀ (cache : Cache) (t e : String),
      dFind cache (M.hashFn t) = none → M.api.embedOne t = Except.error e →
      M.embed_text cache t = (zeros M.dimension, cache)) := by
  refine ⟨?_, ?_, ?_⟩
  · intro cache t h
    unfold EM.embed_text
    rcases hdf : dFind cache (M.hashFn t) with _ | v
    · rcases hone : M.api.embedOne t with e | emb
      · simpa [hdf, hone] using h
      · simp only [hdf, hone]
        exact GoodCache_dUpsert M cache _ emb h (Or.inl ⟨t, hone⟩)
    · simpa [hdf] using h
  · intro cache chunks bs h
    unfold EM.embed_chunks
    refine foldlInv (fun acc : List (Option Vec) × List String × Cache =>
      GoodCache M acc.2.2) _ _ h ?_
    intro acc batch hacc
    exact processBatch_good M acc.2.2 _ hacc
  · intro cache t e hdf hone
    unfold EM.embed_text
    simp [hdf, hone]

/-- A concrete embedding manager whose API always succeeds. -/
def em0 : EM :=
  { hashFn := fun s => s
  , dimension := 2
  , api :=
    { embedOne := fun _ => Except.ok [1, 2]
    , embedBatch := fun ts => Except.ok (ts.map (fun _ => [1, 2])) } }

/-- Claim C10 witness: the invariant at concrete managers and inputs. -/
theorem claimC10_witness :
    GoodCache em0 ((em0.embed_text [] "t").2) ∧
    GoodCache em0 ((em0.embed_chunks [] [{ chunk_id := "c", content := "x" }] 10).2.2) ∧
    em1.embed_text [] "q" = (zeros em1.dimension, []) :=
  ⟨(claimC10_theorem em0).1 [] "t" (by simp [GoodCache]),
   (claimC10_theorem em0).2.1 [] [{ chunk_id := "c", content := "x" }] 10
     (by simp [GoodCache]),
   (claimC10_theorem em1).2.2 [] "q" "down" rfl rfl⟩

/-- The scores component of one fusion pass (both passes update the score
dict the same way). -/
def scoreStep {μ : Type} (k : Nat) (s : List (String × ℚ)) (r : SearchResult μ) :
    List (String × ℚ) :=
  dUpsert s r.chunk_id ((dFind s r.chunk_id).getD 0 + rrfTerm k r.rank)

theorem fst_foldl_vecPass {μ : Type} (k : Nat) :
    ∀ (l : List (SearchResult μ)) (st : List (String × ℚ) × List (String × SearchResult μ)),
      (l.foldl (vecPass k) st).1 = l.foldl (scoreStep k) st.1
  | [], _ => rfl
  | r :: l, st => by
    simp only [List.foldl_cons]
    rw [fst_foldl_vecPass k l (vecPass k st r)]
    rfl

theorem fst_foldl_keyPass {μ : Type} (k : Nat) :
    ∀ (l : List (SearchResult μ)) (st : List (String × ℚ) × List (String × SearchResult μ)),
      (l.foldl (keyPass k) st).1 = l.foldl (scoreStep k) st.1
  | [], _ => rfl
  | r :: l, st => by
    simp only [List.foldl_cons]
    rw [fst_foldl_keyPass k l (keyPass k st r)]
    rfl

/-- The total RRF contribution of a chunk id inside one result list: one
`1/(k + rank)` term per occurrence. -/
def rrfSum {μ : Type} (k : Nat) (l : List (SearchResult μ)) (id : String) : ℚ :=
  ((l.filter (fun r => decide (r.chunk_id = id))).map (fun r => rrfTerm k r.rank)).sum

theorem dFind_foldl_scoreStep {μ : Type} (k : Nat) :
    ∀ (l : List (SearchResult μ)) (s : List (String × ℚ)) (id : String),
      (dFind (l.foldl (scoreStep k) s) id).getD 0 =
        (dFind s id).getD 0 + rrfSum k l id
  | [], s, id => by simp [rrfSum]
  | r :: l, s, id => by
    rw [List.foldl_cons, dFind_foldl_scoreStep k l _ id]
    by_cases h : r.chunk_id = id
    · rw [scoreStep, h, dFind_dUpsert_self]
      simp [rrfSum, h, List.filter_cons]
      ring
    · have h' : id ≠ r.chunk_id := fun hh => h hh.symm
      rw [scoreStep, dFind_dUpsert_ne _ _ _ _ h']
      simp [rrfSum, h, List.filter_cons]

theorem mem_keys_scoreStep_self {μ : Type} (k : Nat) (s : List (String × ℚ))
    (r : SearchResult μ) : r.chunk_id ∈ (scoreStep k s r).map Prod.fst := by
  rw [scoreStep, keys_dUpsert]
  by_cases h : dMem s r.chunk_id
  · simpa [h] using (dMem_iff_mem_keys s r.chunk_id).1 h
  · simp [h]

theorem mem_keys_scoreStep_mono {μ : Type} (k : Nat) (s : List (String × ℚ))
    (r : SearchResult μ) (id : String) (h : id ∈ s.map Prod.fst) :
    id ∈ (scoreStep k s r).map Prod.fst := by
  rw [scoreStep, keys_dUpsert]
  by_cases hm : dMem s r.chunk_id <;> simp [hm, h]

theorem mem_keys_foldl_scoreStep_mono {μ : Type} (k : Nat)
    (l : List (SearchResult μ)) (s : List (String × ℚ)) (id : String)
    (h : id ∈ s.map Prod.fst) :
    id ∈ (l.foldl (scoreStep k) s).map Prod.fst :=
  foldlInv (fun s' : List (String × ℚ) => id ∈ s'.map Prod.fst) l s h
    (fun s' r hs => mem_keys_scoreStep_mono k s' r id hs)

theorem mem_keys_foldl_scoreStep {μ : Type} (k : Nat) :
    ∀ (l : List (SearchResult μ)) (s : List (String × ℚ)) (r : SearchResult μ),
      r ∈ l → r.chunk_id ∈ (l.foldl (scoreStep k) s).map Prod.fst
  | r' :: l, s, r, h => by
    rw [List.foldl_cons]
    rcases List.mem_cons.1 h with rfl | h'
    · exact mem_keys_foldl_scoreStep_mono k l _ r.chunk_id
        (mem_keys_scoreStep_self k s r)
    · exact mem_keys_foldl_scoreStep k l _ r h'

theorem nodup_keys_foldl_scoreStep {μ : Type} (k : Nat)
    (l : List (SearchResult μ)) (s : List (String × ℚ))
    (h : (s.map Prod.fst).Nodup) :
    ((l.foldl (scoreStep k) s).map Prod.fst).Nodup :=
  foldlInv (fun s' : List (String × ℚ) => (s'.map Prod.fst).Nodup) l s h
    (fun s' r hs => nodup_keys_dUpsert s' r.chunk_id _ hs)

theorem dMem_eq_of_keys_eq {κ α β : Type} [DecidableEq κ] (a : List (κ × α))
    (b : List (κ × β)) (h : a.map Prod.fst = b.map Prod.fst) (k : κ) :
    dMem a k = dMem b k := by
  have h1 := dMem_iff_mem_keys a k
  have h2 := dMem_iff_mem_keys b k
  rw [h] at h1
  by_cases hb : dMem b k = true
  · rw [hb]
    exact h1.2 (h2.1 hb)
  · have ha : ¬ dMem a k = true := fun hx => hb (h2.2 (h1.1 hx))
    rw [Bool.not_eq_true] at ha hb
    rw [ha, hb]

/-- Alignment between the two dicts built by
`reciprocal_rank_fusion`: the score dict and the result dict always
carry the same keys in the same order, and each stored result sits under
its own chunk id. -/
def PairInv {μ : Type}
    (st : List (String × ℚ) × List (String × SearchResult μ)) : Prop :=
  st.1.map Prod.fst = st.2.map Prod.fst ∧ ∀ p ∈ st.2, p.2.chunk_id = p.1

theorem PairInv_vecPass {μ : Type} (k : Nat)
    (st : List (String × ℚ) × List (String × SearchResult μ))
    (r : SearchResult μ) (h : PairInv st) : PairInv (vecPass k st r) := by
  obtain ⟨hkeys, hval⟩ := h
  constructor
  · show (dUpsert st.1 r.chunk_id _).map Prod.fst =
      (dUpsert st.2 r.chunk_id r).map Prod.fst
    rw [keys_dUpsert, keys_dUpsert, hkeys,
      dMem_eq_of_keys_eq st.1 st.2 hkeys r.chunk_id]
  · intro p hp
    rcases mem_dUpsert st.2 r.chunk_id r p hp with h' | h'
    · exact hval p h'
    · rw [h']

theorem PairInv_keyPass {μ : Type} (k : Nat)
    (st : List (String × ℚ) × List (String × SearchResult μ))
    (r : SearchResult μ) (h : PairInv st) : PairInv (keyPass k st r) := by
  obtain ⟨hkeys, hval⟩ := h
  constructor
  · show (dUpsert st.1 r.chunk_id _).map Prod.fst =
      (if dMem st.2 r.chunk_id then st.2 else st.2 ++ [(r.chunk_id, r)]).map Prod.fst
    rw [keys_dUpsert, hkeys, dMem_eq_of_keys_eq st.1 st.2 hkeys r.chunk_id]
    by_cases hm : dMem st.2 r.chunk_id <;> simp [hm]
  · show ∀ p ∈ (if dMem st.2 r.chunk_id then st.2 else st.2 ++ [(r.chunk_id, r)]),
      p.2.chunk_id = p.1
    by_cases hm : dMem st.2 r.chunk_id
    · simpa [hm] using hval
    · intro p hp
      simp only [if_neg hm] at hp
      rcases List.mem_append.1 hp with h' | h'
      · exact hval p h'
      · rcases List.mem_singleton.1 h' with rfl
        rfl

theorem PairInv_folds {μ : Type} (k : Nat) (vres kres : List (SearchResult μ)) :
    PairInv (kres.foldl (keyPass k) (vres.foldl (vecPass k) ([], []))) := by
  refine foldlInv (PairInv) kres _ ?_ (fun st r hst => PairInv_keyPass k st r hst)
  exact foldlInv (PairInv) vres ([], []) ⟨rfl, by simp⟩
    (fun st r hst => PairInv_vecPass k st r hst)

theorem data_find {μ : Type}
    (st : List (String × ℚ) × List (String × SearchResult μ)) (h : PairInv st)
    (id : String) (hid : id ∈ st.1.map Prod.fst) :
    ∃ r, dFind st.2 id = some r ∧ r.chunk_id = id := by
  rw [h.1] at hid
  obtain ⟨r, hr⟩ := dFind_isSome_of_mem_keys st.2 id hid
  exact ⟨r, hr, h.2 (id, r) (dFind_mem _ _ _ hr)⟩

/-- The accumulated score dict of `reciprocal_rank_fusion`. -/
def fusedScores {μ : Type} (k : Nat) (vres kres : List (SearchResult μ)) :
    List (String × ℚ) :=
  (kres.foldl (keyPass k) (vres.foldl (vecPass k) ([], []))).1

/-- The fused score `reciprocal_rank_fusion` assigns to a chunk id
(0 when the id occurs in neither input). -/
def fusedScore {μ : Type} (k : Nat) (vres kres : List (SearchResult μ))
    (id : String) : ℚ :=
  (dFind (fusedScores k vres kres) id).getD 0

/-- The score items sorted descending, as in the fusion step. -/
def sortedScores {μ : Type} (k : Nat) (vres kres : List (SearchResult μ)) :
    List (String × ℚ) :=
  (fusedScores k vres kres).mergeSort (fun a b => decide (b.2 ≤ a.2))

theorem rrf_eq {μ : Type} [Inhabited μ] (vres kres : List (SearchResult μ))
    (k : Nat) :
    reciprocal_rank_fusion vres kres k =
      (sortedScores k vres kres).enum.map (fun p =>
        match dFind ((kres.foldl (keyPass k) (vres.foldl (vecPass k) ([], []))).2)
            p.2.1 with
        | some r =>
          { r with rank := p.1 + 1, rrf_score := some p.2.2, search_type := "hybrid" }
        | none => default) := rfl

theorem fusedScore_eq {μ : Type} (k : Nat) (vres kres : List (SearchResult μ))
    (id : String) :
    fusedScore k vres kres id = rrfSum k vres id + rrfSum k kres id := by
  unfold fusedScore fusedScores
  rw [fst_foldl_keyPass, fst_foldl_vecPass, dFind_foldl_scoreStep,
    dFind_foldl_scoreStep]
  simp [dFind]

theorem mem_keys_fusedScores_left {μ : Type} (k : Nat)
    (vres kres : List (SearchResult μ)) (r : SearchResult μ) (hr : r ∈ vres) :
    r.chunk_id ∈ (fusedScores k vres kres).map Prod.fst := by
  unfold fusedScores
  rw [fst_foldl_keyPass, fst_foldl_vecPass]
  exact mem_keys_foldl_scoreStep_mono k kres _ _
    (mem_keys_foldl_scoreStep k vres [] r hr)

theorem mem_keys_fusedScores_right {μ : Type} (k : Nat)
    (vres kres : List (SearchResult μ)) (r : SearchResult μ) (hr : r ∈ kres) :
    r.chunk_id ∈ (fusedScores k vres kres).map Prod.fst := by
  unfold fusedScores
  rw [fst_foldl_keyPass, fst_foldl_vecPass]
  exact mem_keys_foldl_scoreStep k kres _ r hr

theorem nodup_keys_fusedScores {μ : Type} (k : Nat)
    (vres kres : List (SearchResult μ)) :
    ((fusedScores k vres kres).map Prod.fst).Nodup := by
  unfold fusedScores
  rw [fst_foldl_keyPass, fst_foldl_vecPass]
  exact nodup_keys_foldl_scoreStep k kres _
    (nodup_keys_foldl_scoreStep k vres [] (by simp))

theorem rrf_getElem {μ : Type} [Inhabited μ] (vres kres : List (SearchResult μ))
    (k i : Nat) (key : String) (sc : ℚ)
    (hget : (sortedScores k vres kres)[i]? = some (key, sc)) :
    ∃ r, (reciprocal_rank_fusion vres kres k)[i]? = some r ∧
      r.chunk_id = key ∧ r.rank = i + 1 ∧ r.rrf_score = some sc := by
  have hmem : (key, sc) ∈ sortedScores k vres kres := by
    obtain ⟨hlt, heq⟩ := List.getElem?_eq_some.1 hget
    rw [← heq]
    exact List.getElem_mem hlt
  have hmem2 : (key, sc) ∈ fusedScores k vres kres :=
    (List.mergeSort_perm _ _).mem_iff.1 hmem
  have hkey : key ∈ (fusedScores k vres kres).map Prod.fst :=
    List.mem_map_of_mem Prod.fst hmem2
  obtain ⟨r, hr, hrc⟩ := data_find _ (PairInv_folds k vres kres) key hkey
  refine ⟨{ r with rank := i + 1, rrf_score := some sc, search_type := "hybrid" },
    ?_, hrc, rfl, rfl⟩
  rw [rrf_eq, List.getElem?_map, List.getElem?_enum, hget]
  simp [hr]

theorem rrf_chunk_ids {μ : Type} [Inhabited μ] (vres kres : List (SearchResult μ))
    (k : Nat) :
    (reciprocal_rank_fusion vres kres k).map (fun r => r.chunk_id) =
      (sortedScores k vres kres).map Prod.fst := by
  rw [rrf_eq, List.map_map]
  have hcong : ∀ p ∈ (sortedScores k vres kres).enum,
      ((fun r : SearchResult μ => r.chunk_id) ∘ (fun p : Nat × (String × ℚ) =>
        match dFind ((kres.foldl (keyPass k) (vres.foldl (vecPass k) ([], []))).2)
            p.2.1 with
        | some r =>
          { r with rank := p.1 + 1, rrf_score := some p.2.2, search_type := "hybrid" }
        | none => default)) p = p.2.1 := by
    rintro ⟨i, key, sc⟩ hp
    obtain ⟨hlt, hx⟩ := List.mem_enum hp
    have hmem : (key, sc) ∈ sortedScores k vres kres := by
      rw [hx]
      exact List.getElem_mem hlt
    have hmem2 : (key, sc) ∈ fusedScores k vres kres :=
      (List.mergeSort_perm _ _).mem_iff.1 hmem
    have hkey : key ∈ (fusedScores k vres kres).map Prod.fst :=
      List.mem_map_of_mem Prod.fst hmem2
    obtain ⟨r, hr, hrc⟩ := data_find _ (PairInv_folds k vres kres) key hkey
    simp [hr, hrc]
  rw [List.map_congr_left hcong]
  rw [show (fun p : Nat × (String × ℚ) => p.2.1) = Prod.fst ∘ Prod.snd from rfl,
    ← List.map_map, List.enum_map_snd]

theorem rrf_nodup {μ : Type} [Inhabited μ] (vres kres : List (SearchResult μ))
    (k : Nat) :
    ((reciprocal_rank_fusion vres kres k).map (fun r => r.chunk_id)).Nodup := by
  rw [rrf_chunk_ids]
  have hperm : (sortedScores k vres kres).Perm (fusedScores k vres kres) :=
    List.mergeSort_perm _ _
  exact ((hperm.map Prod.fst).symm).nodup (nodup_keys_fusedScores k vres kres)

theorem mergeSort_order_of_lt (sc : List (String × ℚ)) (a b : String × ℚ)
    (ha : a ∈ sc) (hb : b ∈ sc) (hlt : b.2 < a.2) :
    ∃ i j, i < j ∧
      ∃ (hi : i < (sc.mergeSort (fun x y => decide (y.2 ≤ x.2))).length)
        (hj : j < (sc.mergeSort (fun x y => decide (y.2 ≤ x.2))).length),
        (sc.mergeSort (fun x y => decide (y.2 ≤ x.2))).get ⟨i, hi⟩ = a ∧
        (sc.mergeSort (fun x y => decide (y.2 ≤ x.2))).get ⟨j, hj⟩ = b := by
  have hperm := (List.mergeSort_perm sc (fun x y => decide (y.2 ≤ x.2))).symm
  have hsorted := @List.sorted_mergeSort (String × ℚ)
    (fun x y => decide (y.2 ≤ x.2))
    (fun x y z hxy hyz => by
      simp only [decide_eq_true_eq] at hxy hyz ⊢
      exact le_trans hyz hxy)
    (fun x y => by
      simp only [Bool.or_eq_true, decide_eq_true_eq]
      exact le_total y.2 x.2)
    sc
  obtain ⟨i, hi, hei⟩ := List.mem_iff_getElem.1 (hperm.mem_iff.1 ha)
  obtain ⟨j, hj, hej⟩ := List.mem_iff_getElem.1 (hperm.mem_iff.1 hb)
  have hne : i ≠ j := by
    intro h
    subst h
    rw [hei] at hej
    rw [hej] at hlt
    exact lt_irrefl _ hlt
  rcases Nat.lt_or_ge i j with hij | hij
  · exact ⟨i, j, hij, hi, hj, by simpa using hei, by simpa using hej⟩
  · have hji : j < i := lt_of_le_of_ne hij (fun h => hne h.symm)
    have := (List.pairwise_iff_getElem.1 hsorted) j i hj hi hji
    rw [hei, hej] at this
    simp only [decide_eq_true_eq] at this
    exact absurd (lt_of_lt_of_le hlt this) (lt_irrefl _)

/-- Claim C2: `hybrid_search` fetches `top_k * 2` results from each
sub-search, fuses them with RRF (constant 60), and returns the first
`top_k` fused results; whatever it returns has at most `top_k` elements
and carries no duplicate chunk id. -/
theorem claimC2_theorem {μ : Type} [Inhabited μ] (E : Engine μ) (cache : Cache)
    (q : String) (k : Nat) :
    (∀ v st', E.vector_search cache q (k * 2) = Except.ok (v, st') →
      E.hybrid_search cache q k =
        Except.ok
          ((reciprocal_rank_fusion v (E.keyword_search q (k * 2)) 60).take k,
            st')) ∧
    (∀ res st', E.hybrid_search cache q k = Except.ok (res, st') →
      res.length ≤ k ∧ (res.map (fun r => r.chunk_id)).Nodup) := by
  constructor
  · intro v st' hv
    simp [Engine.hybrid_search, hv]
  · intro res st' h
    rcases hvs : E.vector_search cache q (k * 2) with e | vr
    · rw [Engine.hybrid_search, hvs] at h
      exact absurd h (by simp)
    · rcases vr with ⟨v0, st0⟩
      rw [Engine.hybrid_search, hvs] at h
      have hres :
          res = (reciprocal_rank_fusion v0 (E.keyword_search q (k * 2)) 60).take k := by
        injection h with h1
        exact (congrArg Prod.fst h1).symm
      subst hres
      constructor
      · rw [List.length_take]
        exact min_le_left _ _
      · rw [List.map_take]
        exact (List.take_sublist k _).nodup (rrf_nodup _ _ 60)

/-- Claim C2 witness: a concrete hybrid run whose vector sub-results
contain a duplicated chunk id, which fusion removes; the returned list
obeys both bounds. -/
theorem claimC2_witness :
    ∃ res st', eng1.hybrid_search [("q", [0])] "q" 1 = Except.ok (res, st') ∧
      res.length ≤ 1 ∧ (res.map (fun r => r.chunk_id)).Nodup := by
  have hv : eng1.vector_search [("q", [0])] "q" (1 * 2) =
      Except.ok
        (buildVecResults eng1.metadata
          (faissSearch eng1.faiss_index ((em1.embed_text [("q", [0])] "q").1) (1 * 2)),
          (em1.embed_text [("q", [0])] "q").2) := rfl
  have h1 := (claimC2_theorem eng1 [("q", [0])] "q" 1).1 _ _ hv
  have h2 := (claimC2_theorem eng1 [("q", [0])] "q" 1).2 _ _ h1
  exact ⟨_, _, h1, h2.1, h2.2⟩

theorem rrfSum_single {μ : Type} (k : Nat) :
    ∀ (l : List (SearchResult μ)) (id : String) (r : SearchResult μ),
      (l.map (fun x => x.chunk_id)).Nodup → r ∈ l → r.chunk_id = id →
      rrfSum k l id = rrfTerm k r.rank
  | [], _, r, _, hr, _ => absurd hr (List.not_mem_nil r)
  | r' :: t, id, r, hnd, hr, hcid => by
    rw [List.map_cons, List.nodup_cons] at hnd
    rcases List.mem_cons.1 hr with rfl | hrt
    · have hfil : t.filter (fun x => decide (x.chunk_id = id)) = [] := by
        rw [List.filter_eq_nil_iff]
        intro x hx
        simp only [decide_eq_true_eq]
        intro hxid
        apply hnd.1
        rw [hcid, ← hxid]
        exact List.mem_map_of_mem _ hx
      simp [rrfSum, List.filter_cons, hcid, hfil]
    · have hne : ¬ r'.chunk_id = id := by
        intro hh
        exact hnd.1 (by rw [hh, ← hcid]; exact List.mem_map_of_mem _ hrt)
      have := rrfSum_single k t id r hnd.2 hrt hcid
      simpa [rrfSum, List.filter_cons, hne] using this

theorem rrfSum_absent {μ : Type} (k : Nat) (l : List (SearchResult μ)) (id : String)
    (h : ∀ r ∈ l, r.chunk_id ≠ id) : rrfSum k l id = 0 := by
  have hfil : l.filter (fun x => decide (x.chunk_id = id)) = [] := by
    rw [List.filter_eq_nil_iff]
    intro x hx
    simpa using h x hx
  simp [rrfSum, hfil]

theorem rrfTerm_pos (k r : Nat) (hr : 1 ≤ r) : 0 < rrfTerm k r := by
  rw [rrfTerm]
  have h1 : (1 : ℚ) ≤ (r : ℚ) := by exact_mod_cast hr
  have h0 : (0 : ℚ) ≤ (k : ℚ) := by positivity
  positivity

theorem rrfTerm_lt (k r : Nat) (hr : 2 ≤ r) : rrfTerm k r < rrfTerm k 1 := by
  rw [rrfTerm, rrfTerm]
  have h2 : (2 : ℚ) ≤ (r : ℚ) := by exact_mod_cast hr
  have h0 : (0 : ℚ) ≤ (k : ℚ) := by positivity
  have hpos : (0 : ℚ) < (k : ℚ) + 1 := by linarith
  have hlt2 : (k : ℚ) + 1 < (k : ℚ) + (r : ℚ) := by push_cast; linarith
  simpa using one_div_lt_one_div_of_lt hpos hlt2

theorem rrfSum_lt_of_no_rank1 {μ : Type} (k : Nat) (l : List (SearchResult μ))
    (d : String) (hnd : (l.map (fun x => x.chunk_id)).Nodup)
    (hrank : ∀ r ∈ l, 1 ≤ r.rank)
    (hno : ∀ r ∈ l, r.chunk_id = d → r.rank ≠ 1) :
    rrfSum k l d < rrfTerm k 1 := by
  by_cases hex : ∃ r ∈ l, r.chunk_id = d
  · obtain ⟨r, hrl, hrc⟩ := hex
    rw [rrfSum_single k l d r hnd hrl hrc]
    have h2 : 2 ≤ r.rank := by
      have := hrank r hrl
      have := hno r hrl hrc
      omega
    exact rrfTerm_lt k r.rank h2
  · push_neg at hex
    rw [rrfSum_absent k l d hex]
    exact rrfTerm_pos k 1 le_rfl

/-- Claim C3: fusion assigns each chunk id the sum of `1/(k + rank)`
over its occurrences in the two lists (one term per list when per-list
chunk ids are distinct); a chunk ranked 1st in both lists gets a fused
score strictly above that of any chunk holding rank 1 in only one of the
lists, and therefore appears strictly earlier — with a strictly smaller
fused rank — in the fused output. -/
theorem claimC3_theorem {μ : Type} [Inhabited μ] (vres kres : List (SearchResult μ))
    (k : Nat) (c d : String)
    (hk : 0 < k)
    (hvrank : ∀ r ∈ vres, 1 ≤ r.rank) (hkrank : ∀ r ∈ kres, 1 ≤ r.rank)
    (hvnd : (vres.map (fun r => r.chunk_id)).Nodup)
    (hknd : (kres.map (fun r => r.chunk_id)).Nodup)
    (hcd : c ≠ d)
    (hcv : ∃ r ∈ vres, r.chunk_id = c ∧ r.rank = 1)
    (hck : ∃ r ∈ kres, r.chunk_id = c ∧ r.rank = 1)
    (hd : ((∃ r ∈ vres, r.chunk_id = d ∧ r.rank = 1) ∧
            (∀ r ∈ kres, r.chunk_id = d → r.rank ≠ 1)) ∨
          ((∃ r ∈ kres, r.chunk_id = d ∧ r.rank = 1) ∧
            (∀ r ∈ vres, r.chunk_id = d → r.rank ≠ 1))) :
    (∀ id, fusedScore k vres kres id = rrfSum k vres id + rrfSum k kres id) ∧
    fusedScore k vres kres d < fusedScore k vres kres c ∧
    ∃ i j : Nat, i < j ∧
      ∃ ri rj : SearchResult μ,
        (reciprocal_rank_fusion vres kres k)[i]? = some ri ∧
        (reciprocal_rank_fusion vres kres k)[j]? = some rj ∧
        ri.chunk_id = c ∧ rj.chunk_id = d ∧ ri.rank < rj.rank := by
  have hfc : fusedScore k vres kres c = rrfTerm k 1 + rrfTerm k 1 := by
    rw [fusedScore_eq]
    obtain ⟨rv, hrv, hrvc, hrvr⟩ := hcv
    obtain ⟨rk, hrk, hrkc, hrkr⟩ := hck
    rw [rrfSum_single k vres c rv hvnd hrv hrvc, hrvr,
      rrfSum_single k kres c rk hknd hrk hrkc, hrkr]
  have hfd : fusedScore k vres kres d < rrfTerm k 1 + rrfTerm k 1 := by
    rw [fusedScore_eq]
    rcases hd with ⟨⟨rv, hrv, hrvc, hrvr⟩, hnok⟩ | ⟨⟨rk, hrk, hrkc, hrkr⟩, hnov⟩
    · rw [rrfSum_single k vres d rv hvnd hrv hrvc, hrvr]
      exact add_lt_add_left (rrfSum_lt_of_no_rank1 k kres d hknd hkrank hnok) _
    · rw [rrfSum_single k kres d rk hknd hrk hrkc, hrkr]
      have := rrfSum_lt_of_no_rank1 k vres d hvnd hvrank hnov
      linarith
  have hscore : fusedScore k vres kres d < fusedScore k vres kres c := by
    rw [hfc]
    exact hfd
  refine ⟨fusedScore_eq k vres kres, hscore, ?_⟩
  have hcm : c ∈ (fusedScores k vres kres).map Prod.fst := by
    obtain ⟨rv, hrv, hrvc, _⟩ := hcv
    have := mem_keys_fusedScores_left k vres kres rv hrv
    rwa [hrvc] at this
  have hdm : d ∈ (fusedScores k vres kres).map Prod.fst := by
    rcases hd with ⟨⟨rv, hrv, hrvc, _⟩, _⟩ | ⟨⟨rk, hrk, hrkc, _⟩, _⟩
    · have := mem_keys_fusedScores_left k vres kres rv hrv
      rwa [hrvc] at this
    · have := mem_keys_fusedScores_right k vres kres rk hrk
      rwa [hrkc] at this
  obtain ⟨vc, hvc⟩ := dFind_isSome_of_mem_keys _ c hcm
  obtain ⟨vd, hvd⟩ := dFind_isSome_of_mem_keys _ d hdm
  have hvc' : fusedScore k vres kres c = vc := by
    rw [fusedScore, hvc]
    rfl
  have hvd' : fusedScore k vres kres d = vd := by
    rw [fusedScore, hvd]
    rfl
  have hpc : (c, vc) ∈ fusedScores k vres kres := dFind_mem _ _ _ hvc
  have hpd : (d, vd) ∈ fusedScores k vres kres := dFind_mem _ _ _ hvd
  have hlt : vd < vc := by
    rw [← hvc', ← hvd']
    exact hscore
  obtain ⟨i, j, hij, hi, hj, hei, hej⟩ :=
    mergeSort_order_of_lt (fusedScores k vres kres) (c, vc) (d, vd) hpc hpd hlt
  have hgi : (sortedScores k vres kres)[i]? = some (c, vc) := by
    rw [sortedScores, List.getElem?_eq_some]
    exact ⟨hi, by simpa [List.get_eq_getElem] using hei⟩
  have hgj : (sortedScores k vres kres)[j]? = some (d, vd) := by
    rw [sortedScores, List.getElem?_eq_some]
    exact ⟨hj, by simpa [List.get_eq_getElem] using hej⟩
  obtain ⟨ri, hri, hric, hrir, _⟩ := rrf_getElem vres kres k i c vc hgi
  obtain ⟨rj, hrj, hrjc, hrjr, _⟩ := rrf_getElem vres kres k j d vd hgj
  refine ⟨i, j, hij, ri, rj, hri, hrj, hric, hrjc, ?_⟩
  rw [hrir, hrjr]
  omega

/-- A concrete vector-search result ranked 1st for chunk x. -/
def rV1 : SearchResult Unit :=
  { rank := 1, chunk_id := "x", content := "", metadata := (), score := 0
  , search_type := "vector" }

/-- A concrete vector-search result carrying rank 1 for chunk y. -/
def rV2 : SearchResult Unit :=
  { rank := 1, chunk_id := "y", content := "", metadata := (), score := 0
  , search_type := "vector" }

/-- A concrete keyword-search result ranked 1st for chunk x. -/
def rK1 : SearchResult Unit :=
  { rank := 1, chunk_id := "x", content := "", metadata := (), score := 0
  , search_type := "keyword" }

/-- Claim C3 witness: with chunk x ranked 1st in both lists and chunk y
ranked 1st only in the vector list, x gets the strictly higher fused
score and the strictly better fused rank. -/
theorem claimC3_witness :
    fusedScore 60 [rV1, rV2] [rK1] "y" < fusedScore 60 [rV1, rV2] [rK1] "x" ∧
    ∃ i j : Nat, i < j ∧
      ∃ ri rj : SearchResult Unit,
        (reciprocal_rank_fusion [rV1, rV2] [rK1] 60)[i]? = some ri ∧
        (reciprocal_rank_fusion [rV1, rV2] [rK1] 60)[j]? = some rj ∧
        ri.chunk_id = "x" ∧ rj.chunk_id = "y" ∧ ri.rank < rj.rank := by
  have h := claimC3_theorem [rV1, rV2] [rK1] 60 "x" "y" (by decide)
    (by decide) (by decide) (by decide) (by decide) (by decide)
    (by decide) (by decide)
    (Or.inl ⟨by decide, by decide⟩)
  exact ⟨h.2.1, h.2.2⟩

/-- The sentence units of a text under the splitter's normalization:
split on period-space after newline-to-space replacement, stripped, with
empty units dropped. -/
def unitsOf (text : Str) : List Str :=
  ((splitDot (nlToSpace text)).map pyStrip).filter (fun u => u ≠ [])

/-- Render a group of units the way the accumulation loop does: each
unit re-suffixed with period-space, concatenated. -/
def joinUnits (g : List Str) : Str := (g.map (fun u => u ++ strOf ". ")).join

/-- The token count the loop accumulates for a group. -/
def sumTok (cs : CS) (g : List Str) : Nat :=
  (g.map (fun u => cs.count_tokens (u ++ strOf ". "))).sum

theorem strOf_dot_space : strOf ". " = ['.', ' '] := rfl

theorem joinUnits_append (g : List Str) (u : Str) :
    joinUnits (g ++ [u]) = joinUnits g ++ (u ++ strOf ". ") := by
  simp [joinUnits]

theorem sumTok_append (cs : CS) (g : List Str) (u : Str) :
    sumTok cs (g ++ [u]) = sumTok cs g + cs.count_tokens (u ++ strOf ". ") := by
  simp [sumTok]

theorem joinUnits_ne_nil (u0 : Str) (g0 : List Str) :
    joinUnits (u0 :: g0) ≠ [] := by
  simp [joinUnits, strOf_dot_space]

theorem splitFold_spec (cs : CS) (M : Nat) :
    ∀ (sents : List Str) (groups : List (List Str)) (curG : List Str),
      (∀ g ∈ groups, g ≠ []) →
      (∀ g ∈ groups, ∀ u ∈ g, M < cs.count_tokens (u ++ strOf ". ") → g = [u]) →
      (∀ u ∈ curG, M < cs.count_tokens (u ++ strOf ". ") → curG = [u]) →
      ∃ (groups' : List (List Str)) (curG' : List Str),
        sents.foldl (splitStep cs M)
            (groups.map (fun g => pyStrip (joinUnits g)), joinUnits curG,
              sumTok cs curG) =
          (groups'.map (fun g => pyStrip (joinUnits g)), joinUnits curG',
            sumTok cs curG') ∧
        groups'.join ++ curG' =
          groups.join ++ curG ++ ((sents.map pyStrip).filter (fun u => u ≠ [])) ∧
        (∀ g ∈ groups', g ≠ []) ∧
        (∀ g ∈ groups', ∀ u ∈ g, M < cs.count_tokens (u ++ strOf ". ") → g = [u]) ∧
        (∀ u ∈ curG', M < cs.count_tokens (u ++ strOf ". ") → curG' = [u])
  | [], groups, curG, h1, h2, h3 =>
    ⟨groups, curG, rfl, by simp, h1, h2, h3⟩
  | sraw :: sents, groups, curG, h1, h2, h3 => by
    rw [List.foldl_cons]
    by_cases hu : pyStrip sraw = []
    · have hstep : splitStep cs M
          (groups.map (fun g => pyStrip (joinUnits g)), joinUnits curG,
            sumTok cs curG) sraw =
          (groups.map (fun g => pyStrip (joinUnits g)), joinUnits curG,
            sumTok cs curG) := by
        simp [splitStep, hu]
      rw [hstep]
      obtain ⟨g', c', hf, hj, p1, p2, p3⟩ :=
        splitFold_spec cs M sents groups curG h1 h2 h3
      exact ⟨g', c', hf, by simpa [hu, List.filter_cons] using hj, p1, p2, p3⟩
    · by_cases hle :
        sumTok cs curG + cs.count_tokens (pyStrip sraw ++ strOf ". ") ≤ M
      · have hstep : splitStep cs M
            (groups.map (fun g => pyStrip (joinUnits g)), joinUnits curG,
              sumTok cs curG) sraw =
            (groups.map (fun g => pyStrip (joinUnits g)),
              joinUnits (curG ++ [pyStrip sraw]),
              sumTok cs (curG ++ [pyStrip sraw])) := by
          simp [splitStep, hu, hle, joinUnits_append, sumTok_append]
        rw [hstep]
        have h3' : ∀ x ∈ curG ++ [pyStrip sraw],
            M < cs.count_tokens (x ++ strOf ". ") →
            curG ++ [pyStrip sraw] = [x] := by
          intro x hx hbig
          exfalso
          rcases List.mem_append.1 hx with hxc | hxs
          · have hcx := h3 x hxc hbig
            rw [hcx] at hle
            simp [sumTok] at hle
            omega
          · rcases List.mem_singleton.1 hxs with rfl
            omega
        obtain ⟨g', c', hf, hj, p1, p2, p3⟩ :=
          splitFold_spec cs M sents groups (curG ++ [pyStrip sraw]) h1 h2 h3'
        refine ⟨g', c', hf, ?_, p1, p2, p3⟩
        rw [hj]
        simp [hu, List.filter_cons]
      · by_cases hcur : curG = []
        · subst hcur
          have hstep : splitStep cs M
              (groups.map (fun g => pyStrip (joinUnits g)), joinUnits [],
                sumTok cs []) sraw =
              (groups.map (fun g => pyStrip (joinUnits g)),
                joinUnits [pyStrip sraw], sumTok cs [pyStrip sraw]) := by
            simp [splitStep, hu, hle, joinUnits, sumTok]
          rw [hstep]
          have h3' : ∀ x ∈ [pyStrip sraw],
              M < cs.count_tokens (x ++ strOf ". ") → [pyStrip sraw] = [x] := by
            intro x hx _
            rcases List.mem_singleton.1 hx with rfl
            rfl
          obtain ⟨g', c', hf, hj, p1, p2, p3⟩ :=
            splitFold_spec cs M sents groups [pyStrip sraw] h1 h2 h3'
          refine ⟨g', c', hf, ?_, p1, p2, p3⟩
          rw [hj]
          simp [hu, List.filter_cons]
        · have hjne : joinUnits curG ≠ [] := by
            rcases curG with _ | ⟨u0, g0⟩
            · exact absurd rfl hcur
            · exact joinUnits_ne_nil u0 g0
          have hstep : splitStep cs M
              (groups.map (fun g => pyStrip (joinUnits g)), joinUnits curG,
                sumTok cs curG) sraw =
              ((groups ++ [curG]).map (fun g => pyStrip (joinUnits g)),
                joinUnits [pyStrip sraw], sumTok cs [pyStrip sraw]) := by
            simp only [splitStep]
            rw [if_neg hu, if_neg hle, if_neg hjne]
            simp [List.map_append, joinUnits, sumTok]
          rw [hstep]
          have h1' : ∀ g ∈ groups ++ [curG], g ≠ [] := by
            intro g hg
            rcases List.mem_append.1 hg with h' | h'
            · exact h1 g h'
            · rcases List.mem_singleton.1 h' with rfl
              exact hcur
          have h2' : ∀ g ∈ groups ++ [curG], ∀ u ∈ g,
              M < cs.count_tokens (u ++ strOf ". ") → g = [u] := by
            intro g hg
            rcases List.mem_append.1 hg with h' | h'
            · exact h2 g h'
            · rcases List.mem_singleton.1 h' with rfl
              exact h3
          have h3' : ∀ x ∈ [pyStrip sraw],
              M < cs.count_tokens (x ++ strOf ". ") → [pyStrip sraw] = [x] := by
            intro x hx _
            rcases List.mem_singleton.1 hx with rfl
            rfl
          obtain ⟨g', c', hf, hj, p1, p2, p3⟩ :=
            splitFold_spec cs M sents (groups ++ [curG]) [pyStrip sraw] h1' h2' h3'
          refine ⟨g', c', hf, ?_, p1, p2, p3⟩
          rw [hj]
          simp [hu, List.filter_cons, List.join_append]

theorem split_text_spec (cs : CS) (text : Str) (M : Nat) :
    ∃ groups : List (List Str),
      groups.join = unitsOf text ∧
      (∀ g ∈ groups, g ≠ []) ∧
      cs.split_text_by_tokens text M =
        groups.map (fun g => pyStrip (joinUnits g)) ∧
      (∀ u ∈ unitsOf text, M < cs.count_tokens (u ++ strOf ". ") →
        [u] ∈ groups) := by
  obtain ⟨g', c', hf, hj, p1, p2, p3⟩ :=
    splitFold_spec cs M (splitDot (nlToSpace text)) [] [] (by simp) (by simp)
      (by simp)
  have hf' : (splitDot (nlToSpace text)).foldl (splitStep cs M) ([], [], 0) =
      (g'.map (fun g => pyStrip (joinUnits g)), joinUnits c', sumTok cs c') := hf
  have hunits : unitsOf text =
      (((splitDot (nlToSpace text)).map pyStrip).filter (fun u => u ≠ [])) := rfl
  have hj' : g'.join ++ c' = unitsOf text := by
    rw [hunits]
    simpa using hj
  by_cases hc : c' = []
  · subst hc
    refine ⟨g', by simpa using hj', p1, ?_, ?_⟩
    · simp [CS.split_text_by_tokens, hf', joinUnits]
    · intro u hu hbig
      have hu' : u ∈ g'.join := by
        rw [← hj'] at hu
        simpa using hu
      obtain ⟨g, hg, hug⟩ := List.mem_join.1 hu'
      rw [← p2 g hg u hug hbig]
      exact hg
  · have hjoin_ne : joinUnits c' ≠ [] := by
      rcases c' with _ | ⟨u0, g0⟩
      · exact absurd rfl hc
      · exact joinUnits_ne_nil u0 g0
    refine ⟨g' ++ [c'], ?_, ?_, ?_, ?_⟩
    · simpa [List.join_append] using hj'
    · intro g hg
      rcases List.mem_append.1 hg with h' | h'
      · exact p1 g h'
      · rcases List.mem_singleton.1 h' with rfl
        exact hc
    · simp [CS.split_text_by_tokens, hf', hjoin_ne, List.map_append]
    · intro u hu hbig
      have hu' : u ∈ g'.join ++ c' := by
        rw [hj']
        exact hu
      rcases List.mem_append.1 hu' with h' | h'
      · obtain ⟨g, hg, hug⟩ := List.mem_join.1 h'
        rw [← p2 g hg u hug hbig]
        exact List.mem_append_left _ hg
      · rw [← p3 u h' hbig]
        simp

/-- Claim C8: the pieces of `split_text_by_tokens` are exactly the
renderings of a partition of the non-empty sentence units of the input,
in order — no unit is dropped; a unit whose own (delimiter-re-appended)
token count exceeds the bound still forms a group of its own, emitted
whole as one piece; and the empty input yields no pieces. -/
theorem claimC8_theorem (cs : CS) (M : Nat) :
    (∀ text : Str, ∃ groups : List (List Str),
      groups.join = unitsOf text ∧
      (∀ g ∈ groups, g ≠ []) ∧
      cs.split_text_by_tokens text M =
        groups.map (fun g => pyStrip (joinUnits g)) ∧
      (∀ u ∈ unitsOf text, M < cs.count_tokens (u ++ strOf ". ") →
        [u] ∈ groups)) ∧
    cs.split_text_by_tokens [] M = [] := by
  refine ⟨fun text => split_text_spec cs text M, rfl⟩

/-- Claim C8 witness: a concrete text with an oversized sentence unit —
the unit forms its own group, and the pieces partition all units. -/
theorem claimC8_witness :
    ∃ groups : List (List Str),
      groups.join = unitsOf (strOf "abcdefghijkl. ab") ∧
      cs1.split_text_by_tokens (strOf "abcdefghijkl. ab") 8 =
        groups.map (fun g => pyStrip (joinUnits g)) ∧
      [strOf "abcdefghijkl"] ∈ groups := by
  obtain ⟨g, h1, _, h3, h4⟩ :=
    (claimC8_theorem cs1 8).1 (strOf "abcdefghijkl. ab")
  exact ⟨g, h1, h3, h4 (strOf "abcdefghijkl") (by decide) (by decide)⟩
